import Mathlib

/-!
# Verification of the `stdsimd` generic SIMD vector core

Shallow embedding of the generic vector wrapper and its trait surface
(`src/crates/core_simd/src/macros.rs`) and of the test-generation scheme
(`src/crates/core_simd/tests/ops_macros.rs`).

Modelling conventions:
* A SIMD vector `$name<LANES>([T; LANES])` is a newtype around its lane
  array, modelled as a structure holding the list of lane values; the lane
  count `N` is the list's length.
* Machine integers of bit width `w` are modelled by their two's-complement
  bit patterns, i.e. natural numbers `< 2 ^ w`; wrapping arithmetic is
  arithmetic modulo `2 ^ w`.  Where a signed-value view is needed
  (checked division), lanes are modelled as mathematical integers in
  `[-2 ^ (w-1), 2 ^ (w-1))`.
* Float lanes are modelled by their IEEE bit patterns (naturals `< 2 ^ w`)
  for the bit-reinterpretation layer, and by an abstract NaN/signed-zero
  carrier `MFloat` for the min/max reduction semantics.
* A Rust panic is modelled as `Option.none`; total (never-trapping)
  operations are total Lean functions.
* Operations whose implementation is not part of the sources here (only
  their tests are) carry a doc comment starting `Modelled from the spec:`.
-/

/-- Shallow embedding of the repository's generic SIMD vector
`$name<LANES>([T; LANES])` (`macros.rs`, `impl_vector`): a newtype wrapping
the lane array, modelled as the list of lane values (lane count = length). -/
structure Vec (α : Type) where
  lanes : List α
deriving DecidableEq

/-- Embeds `splat` (`macros.rs` line 34): construct a vector by setting all lanes to
the given value, `Self([value; LANES])`. -/
def Vec.splat (n : Nat) (value : α) : Vec α :=
  ⟨List.replicate n value⟩

/-- Embeds `as_slice` (`macros.rs` line 39): a view of the entire lane sequence. -/
def Vec.as_slice (v : Vec α) : List α :=
  v.lanes

/-- Embeds `from_array` (`macros.rs` line 49): converts an array to a SIMD vector,
`Self(array)`. -/
def Vec.from_array (array : List α) : Vec α :=
  ⟨array⟩

/-- Embeds `to_array` (`macros.rs` lines 68-71, the `not(target_arch = "wasm32")`
branch): returns the inner array `self.0`. -/
def Vec.to_array (v : Vec α) : List α :=
  v.lanes

/-- The copying loop of the `wasm32` branch of `to_array`
(`macros.rs` lines 60-64): `while i < LANES { arr[i] = self.0[i]; i += 1 }`,
iterating over the source lanes with a running index. -/
def Vec.copyLoop (arr : List α) (i : Nat) : List α → List α
  | [] => arr
  | x :: rest => Vec.copyLoop (arr.set i x) (i + 1) rest

/-- Embeds `to_array`, the `target_arch = "wasm32"` branch (`macros.rs` lines 57-66):
`let mut arr = [self.0[0]; LANES];` followed by the copy loop.  The
initializer indexes `self.0[0]`, which panics (`none`) when `LANES = 0`. -/
def Vec.to_array_wasm (v : Vec α) : Option (List α) :=
  match v.lanes with
  | [] => none
  | x :: _ => some (Vec.copyLoop (List.replicate v.lanes.length x) 0 v.lanes)

/-- Embeds `PartialEq::eq` (`macros.rs` lines 91-97):
`self.to_array() == other.to_array()` — array equality, which in Rust is
lane-by-lane equality under the element type's equality. -/
def Vec.eqv [DecidableEq α] (a b : Vec α) : Bool :=
  decide (a.to_array = b.to_array)

/-- Model of the core library's lexicographic `partial_cmp` on arrays/slices,
parameterized by the element type's `partial_cmp`: compare lane pairs in
order, continuing past `Some(Equal)` and returning the first other outcome
(`Some(Less)`, `Some(Greater)` or `None`); a exhausted prefix compares by
length (equal-length arrays end at `Some(Equal)`). -/
def lexPcmp (pc : α → α → Option Ordering) : List α → List α → Option Ordering
  | [], [] => some .eq
  | [], _ :: _ => some .lt
  | _ :: _, [] => some .gt
  | x :: xs, y :: ys =>
    match pc x y with
    | some .eq => lexPcmp pc xs ys
    | o => o

/-- Model of the core library's lexicographic total `cmp` on arrays/slices,
parameterized by the element type's total `cmp`. -/
def lexCmp (c : α → α → Ordering) : List α → List α → Ordering
  | [], [] => .eq
  | [], _ :: _ => .lt
  | _ :: _, [] => .gt
  | x :: xs, y :: ys =>
    match c x y with
    | .eq => lexCmp c xs ys
    | o => o

/-- Embeds `PartialOrd::partial_cmp` (`macros.rs` lines 99-105):
`self.to_array().partial_cmp(other.as_ref())`. -/
def Vec.pcmp (pc : α → α → Option Ordering) (a b : Vec α) : Option Ordering :=
  lexPcmp pc a.to_array b.as_slice

/-- Embeds `Ord::cmp` for integer vectors (`macros.rs` lines 167-173):
`self.to_array().cmp(other.as_ref())`. -/
def Vec.cmp (c : α → α → Ordering) (a b : Vec α) : Ordering :=
  lexCmp c a.to_array b.as_slice

/-- Embeds `Hash::hash` for integer vectors (`macros.rs` lines 175-183):
`self.as_slice().hash(state)` — the hash value is a function of the lane
sequence alone, modelled by an arbitrary hash function on lane lists. -/
def Vec.hashv (h : List α → Nat) (v : Vec α) : Nat :=
  h v.as_slice

/-- Scalar `wrapping_add` on `w`-bit two's-complement bit patterns:
addition modulo `2 ^ w`. -/
def wrapping_add (w x y : Nat) : Nat :=
  (x + y) % 2 ^ w

/-- Scalar `wrapping_sub` on `w`-bit two's-complement bit patterns:
subtraction modulo `2 ^ w` (computed in `ℤ` and reduced to `[0, 2 ^ w)`). -/
def wrapping_sub (w x y : Nat) : Nat :=
  (((x : Int) - (y : Int)) % (2 ^ w : Int)).toNat

/-- Scalar `wrapping_mul` on `w`-bit two's-complement bit patterns:
multiplication modulo `2 ^ w`. -/
def wrapping_mul (w x y : Nat) : Nat :=
  x * y % 2 ^ w

/-- Modelled from the spec: the vector binary operators (`Add`, `Sub`, `Mul`,
`BitAnd`, ...) are implemented elementwise — the operator implementations are
not among these sources (only their tests are); per the spec,
`(a op b).lane[i] == a.lane[i] op b.lane[i]`.  Vector-vector form. -/
def Vec.binop (f : α → α → α) (a b : Vec α) : Vec α :=
  ⟨List.zipWith f a.lanes b.lanes⟩

/-- Modelled from the spec: vector-scalar (broadcast rhs) form of a binary
operator — the scalar is treated as a uniform lane value. -/
def Vec.binopScalar (f : α → α → α) (a : Vec α) (s : α) : Vec α :=
  ⟨a.lanes.map (fun x => f x s)⟩

/-- Modelled from the spec: scalar-vector (broadcast lhs) form of a binary
operator — the scalar is treated as a uniform lane value. -/
def Vec.scalarBinop (f : α → α → α) (s : α) (b : Vec α) : Vec α :=
  ⟨b.lanes.map (fun y => f s y)⟩

/-- Modelled from the spec: the in-place/assigning form (`AddAssign`, ...)
has the identical elementwise contract — `a op= b` leaves `a` holding
`a op b`; modelled by returning the updated value. -/
def Vec.binopAssign (f : α → α → α) (a b : Vec α) : Vec α :=
  Vec.binop f a b

/-- The signed minimum of a `w`-bit integer type, `-(2 ^ (w - 1))`
(e.g. `i8::MIN = -128` for `w = 8`). -/
def intMin (w : Nat) : Int :=
  -(2 ^ (w - 1))

/-- Modelled from the spec: scalar checked/trapping signed division of
`w`-bit integers — panics (`none`) when the divisor is `0` or on the signed
overflow case `MIN / -1`; otherwise truncated division, as for Rust
integers. -/
def checked_div (w : Nat) (x y : Int) : Option Int :=
  if y = 0 ∨ (x = intMin w ∧ y = -1) then none else some (x.tdiv y)

/-- Modelled from the spec: scalar checked/trapping signed remainder of
`w`-bit integers — panics (`none`) when the divisor is `0` or on the signed
overflow case `MIN % -1`; otherwise truncated remainder. -/
def checked_rem (w : Nat) (x y : Int) : Option Int :=
  if y = 0 ∨ (x = intMin w ∧ y = -1) then none else some (x.tmod y)

/-- Modelled from the spec: scalar checked/trapping unsigned division —
panics (`none`) exactly when the divisor is `0`. -/
def checked_div_u (x y : Nat) : Option Nat :=
  if y = 0 then none else some (x / y)

/-- Modelled from the spec: scalar checked/trapping unsigned remainder —
panics (`none`) exactly when the divisor is `0`. -/
def checked_rem_u (x y : Nat) : Option Nat :=
  if y = 0 then none else some (x % y)

/-- Collects a list of fallible lane results: `none` (a panicking lane) makes
the whole operation panic — any one lane triggering traps the whole
operation. -/
def seqOpt : List (Option α) → Option (List α)
  | [] => some []
  | o :: rest => o.bind fun x => (seqOpt rest).map fun xs => x :: xs

/-- Modelled from the spec: elementwise fallible binary operation (used for
`Div`/`Rem`): applies the scalar checked operation per lane and panics
(`none`) if any lane panics. -/
def Vec.binopChecked (f : α → α → Option α) (a b : Vec α) : Option (Vec α) :=
  (seqOpt (List.zipWith f a.lanes b.lanes)).map Vec.mk

/-- Modelled from the spec: `Div` for signed `w`-bit integer vectors. -/
def Vec.vdiv (w : Nat) (a b : Vec Int) : Option (Vec Int) :=
  Vec.binopChecked (checked_div w) a b

/-- Modelled from the spec: `Rem` for signed `w`-bit integer vectors. -/
def Vec.vrem (w : Nat) (a b : Vec Int) : Option (Vec Int) :=
  Vec.binopChecked (checked_rem w) a b

/-- Modelled from the spec: `Div` for unsigned integer vectors. -/
def Vec.vdivU (a b : Vec Nat) : Option (Vec Nat) :=
  Vec.binopChecked checked_div_u a b

/-- Modelled from the spec: `Rem` for unsigned integer vectors. -/
def Vec.vremU (a b : Vec Nat) : Option (Vec Nat) :=
  Vec.binopChecked checked_rem_u a b

/-- A float SIMD vector, modelled by the IEEE bit pattern of each lane
(a natural number `< 2 ^ w` for element width `w`). -/
structure FloatVec where
  lanes : List Nat
deriving DecidableEq

/-- The paired unsigned-integer "bits" vector of a float vector type
(same element width, same lane count). -/
structure BitsVec where
  lanes : List Nat
deriving DecidableEq

/-- Embeds `to_bits` (`macros.rs` lines 198-201): raw transmutation to the
unsigned-integer vector type of the same size and lane count; the size
assertion holds in this model (both sides are `N` lanes of `w` bits), and
the transmute reinterprets bits, leaving every lane's bit pattern intact. -/
def FloatVec.to_bits (v : FloatVec) : BitsVec :=
  ⟨v.lanes⟩

/-- Embeds `from_bits` (`macros.rs` lines 206-209): raw transmutation from the
unsigned-integer vector type of the same size and lane count. -/
def FloatVec.from_bits (b : BitsVec) : FloatVec :=
  ⟨b.lanes⟩

/-- Embeds `BitsVec.splat`: every lane set to the given bit pattern (the bits-vector
counterpart of `Vec.splat`). -/
def BitsVec.splat (n x : Nat) : BitsVec :=
  ⟨List.replicate n x⟩

/-- Modelled from the spec: `BitAnd` on the bits vector is elementwise
bitwise AND (its implementation is not among these sources). -/
def BitsVec.andv (a b : BitsVec) : BitsVec :=
  ⟨List.zipWith Nat.land a.lanes b.lanes⟩

/-- The mask `!0 >> 1` of `abs` (`macros.rs` line 215) at element width `w`:
all bits set except the most significant one. -/
def noSignMask (w : Nat) : Nat :=
  (2 ^ w - 1) >>> 1

/-- Embeds `abs` (`macros.rs` lines 214-217):
`Self::from_bits(self.to_bits() & crate::$bits_ty::splat(!0 >> 1))`. -/
def FloatVec.abs (w : Nat) (v : FloatVec) : FloatVec :=
  FloatVec.from_bits (BitsVec.andv v.to_bits (BitsVec.splat v.lanes.length (noSignMask w)))

/-- Modelled from the spec: the scalar float absolute-value function on a
`w`-bit IEEE bit pattern clears the sign bit (the most significant bit) and
preserves every other bit; for a pattern `< 2 ^ w` that is reduction modulo
`2 ^ (w - 1)`. -/
def scalarFloatAbs (w x : Nat) : Nat :=
  x % 2 ^ (w - 1)

/-- Modelled from the spec: a scalar float value as relevant to the
NaN-propagating min/max reductions — NaN, or a numeric value carried as a
rational together with a negative-zero marker (`negZero = true` marks
`-0.0`; it is only meaningful when `val = 0`). -/
inductive MFloat where
  | nan : MFloat
  | num (val : ℚ) (negZero : Bool) : MFloat
deriving DecidableEq

/-- Modelled from the spec: scalar float `max` — returns the non-NaN operand
when exactly one side is NaN; otherwise compares the numeric values (the two
signed zeros compare equal, and which of two numerically-equal operands is
returned is the implementation's choice — here the left one). -/
def MFloat.fmax : MFloat → MFloat → MFloat
  | .nan, y => y
  | .num a sa, .nan => .num a sa
  | .num a sa, .num b sb => if a < b then .num b sb else .num a sa

/-- Modelled from the spec: scalar float `min`, dual to `MFloat.fmax`. -/
def MFloat.fmin : MFloat → MFloat → MFloat
  | .nan, y => y
  | .num a sa, .nan => .num a sa
  | .num a sa, .num b sb => if b < a then .num b sb else .num a sa

/-- Erases the sign of a zero (`-0.0 ↦ +0.0`), the equivalence under which
the min/max reductions' results are compared. -/
def MFloat.canonZero : MFloat → MFloat
  | .nan => .nan
  | .num a _ => .num a false

/-- Modelled from the spec: `horizontal_max` for float vectors — the scalar
NaN-propagating fold of `max` over the lanes (fold seeded with NaN, so NaN
lanes are skipped and the result is NaN only if every lane is NaN). -/
def Vec.horizontal_max_f (v : Vec MFloat) : MFloat :=
  v.lanes.foldl MFloat.fmax .nan

/-- Modelled from the spec: `horizontal_min` for float vectors — the scalar
NaN-propagating fold of `min` over the lanes. -/
def Vec.horizontal_min_f (v : Vec MFloat) : MFloat :=
  v.lanes.foldl MFloat.fmin .nan

/-- Modelled from the spec: integer `horizontal_sum` — the left fold of
wrapping addition over the lanes with identity `0`. -/
def Vec.horizontal_sum (w : Nat) (v : Vec Nat) : Nat :=
  v.lanes.foldl (wrapping_add w) 0

/-- Modelled from the spec: integer `horizontal_product` — the left fold of
wrapping multiplication over the lanes with identity `1`. -/
def Vec.horizontal_product (w : Nat) (v : Vec Nat) : Nat :=
  v.lanes.foldl (wrapping_mul w) 1

/-- Modelled from the spec: `horizontal_and` — the fold of bitwise AND over
the lanes with identity all-ones (`-1 as $scalar`, i.e. `2 ^ w - 1`). -/
def Vec.horizontal_and (w : Nat) (v : Vec Nat) : Nat :=
  v.lanes.foldl Nat.land (2 ^ w - 1)

/-- Modelled from the spec: `horizontal_or` — the fold of bitwise OR over the
lanes with identity all-zeros. -/
def Vec.horizontal_or (v : Vec Nat) : Nat :=
  v.lanes.foldl Nat.lor 0

/-- Modelled from the spec: `horizontal_xor` — the fold of bitwise XOR over
the lanes with identity all-zeros. -/
def Vec.horizontal_xor (v : Vec Nat) : Nat :=
  v.lanes.foldl Nat.xor 0

/-- Modelled from the spec: integer `horizontal_max` — the standard max fold
over the lanes (meaningful only for `N ≥ 1`; `none` on the unsupported empty
configuration, where the test oracle `iter().max().unwrap()` panics). -/
def Vec.horizontal_maxi [LinearOrder α] (v : Vec α) : Option α :=
  match v.lanes with
  | [] => none
  | x :: xs => some (xs.foldl max x)

/-- Modelled from the spec: integer `horizontal_min` — the standard min fold
over the lanes. -/
def Vec.horizontal_mini [LinearOrder α] (v : Vec α) : Option α :=
  match v.lanes with
  | [] => none
  | x :: xs => some (xs.foldl min x)

/-- The kinds of test functions the binary-operator test template expands
to (`ops_macros.rs`, `impl_binary_op_test` / `impl_binary_checked_op_test`):
`normal` (vector-vector), `scalar_rhs` (vector-scalar, broadcast rhs),
`scalar_lhs` (scalar-vector, broadcast lhs), `assign` (in-place
vector-vector), `assign_scalar_rhs` (in-place vector-scalar). -/
inductive BinTestKind where
  | normal : BinTestKind
  | scalarRhs : BinTestKind
  | scalarLhs : BinTestKind
  | assign : BinTestKind
  | assignScalarRhs : BinTestKind
deriving DecidableEq

/-- One generated equivalence test: its form and the scalar reference
function it compares the vector operation against. -/
structure BinTest (σ : Type) where
  kind : BinTestKind
  scalarRef : σ
deriving DecidableEq

/-- Embeds `impl_binary_op_test` (`ops_macros.rs` lines 26-77): the list of test
functions the template generates for one declared operator, each comparing
against the scalar reference `$scalar_fn` passed to the template — in source
order `normal`, `scalar_rhs`, `scalar_lhs`, `assign`, `assign_scalar_rhs`. -/
def impl_binary_op_test (ref : σ) : List (BinTest σ) :=
  [⟨.normal, ref⟩, ⟨.scalarRhs, ref⟩, ⟨.scalarLhs, ref⟩,
   ⟨.assign, ref⟩, ⟨.assignScalarRhs, ref⟩]

/-- Embeds `impl_binary_checked_op_test` (`ops_macros.rs` lines 86-137): the list of
test functions the input-filtering variant of the template generates — the
same five forms against the same scalar reference, each with an input
filter derived from `$check_fn`. -/
def impl_binary_checked_op_test (ref : σ) : List (BinTest σ) :=
  [⟨.normal, ref⟩, ⟨.scalarRhs, ref⟩, ⟨.scalarLhs, ref⟩,
   ⟨.assign, ref⟩, ⟨.assignScalarRhs, ref⟩]

/-! ## Helper lemmas -/

/-- Lane `i` of an elementwise binary vector operation is the scalar
operation applied to lane `i` of the operands. -/
theorem binop_lane (f : α → α → α) (x y : List α) (i : Nat)
    (hx : i < x.length) (hy : i < y.length) :
    (Vec.binop f (Vec.from_array x) (Vec.from_array y)).to_array[i]? =
      some (f x[i] y[i]) := by
  simp [Vec.binop, Vec.from_array, Vec.to_array, List.getElem?_zipWith',
    List.getElem?_eq_getElem, hx, hy]

/-- A list equals another iff they have the same length and the same element
at every index. -/
theorem list_eq_iff_getElem (xs ys : List α) :
    xs = ys ↔ xs.length = ys.length ∧
      ∀ (i : Nat) (h1 : i < xs.length) (h2 : i < ys.length), xs[i] = ys[i] := by
  constructor
  · rintro rfl
    exact ⟨rfl, fun _ _ _ => rfl⟩
  · rintro ⟨h1, h2⟩
    exact List.ext_getElem h1 h2

/-! ## C3: array round-trip -/

/-- C3: for every element type and every lane array `arr`,
`from_array(arr).to_array() == arr`, and `from_array(to_array(v)) == v` for
every vector `v`; both are total, order-preserving inverses with no failure
mode. -/
theorem from_array_to_array_roundtrip (α : Type) :
    (∀ arr : List α, (Vec.from_array arr).to_array = arr) ∧
    (∀ v : Vec α, Vec.from_array v.to_array = v) :=
  ⟨fun _ => rfl, fun _ => rfl⟩

/-! ## C6: float bit round-trip -/

/-- C6: `Vector::from_bits(v.to_bits()) == v` bit-for-bit for every float
vector `v`; `to_bits` and `from_bits` are mutually inverse bit-pattern
reinterpretations, preserving every bit (hence every NaN payload) of every
lane. -/
theorem float_bits_roundtrip :
    (∀ v : FloatVec, FloatVec.from_bits v.to_bits = v) ∧
    (∀ b : BitsVec, (FloatVec.from_bits b).to_bits = b) ∧
    (∀ v : FloatVec, v.to_bits.lanes = v.lanes) :=
  ⟨fun _ => rfl, fun _ => rfl, fun _ => rfl⟩

/-! ## C9: shape of the binary-operator test template -/

/-- C9 (counterexample): the binary-operator template does not generate
exactly four tests — evaluated at a concrete scalar reference, the generated
list has five entries. -/
theorem binary_op_test_count_counterexample :
    ¬ (impl_binary_op_test (0 : Nat)).length = 4 := by
  decide

/-- C9 (amended): for every declared operator, the binary-operator templates
generate exactly five equivalence tests against the same scalar reference
function — vector-vector (`normal`), vector-scalar broadcast (`scalar_rhs`),
scalar-vector broadcast (`scalar_lhs`), the assigning vector-vector form
(`assign`), and the assigning vector-scalar form (`assign_scalar_rhs`) —
for the plain and the input-filtering template alike. -/
theorem binary_op_test_generates_five (σ : Type) (ref : σ) :
    (impl_binary_op_test ref).length = 5 ∧
    (impl_binary_checked_op_test ref).length = 5 ∧
    (impl_binary_op_test ref).map BinTest.kind =
      [.normal, .scalarRhs, .scalarLhs, .assign, .assignScalarRhs] ∧
    (impl_binary_checked_op_test ref).map BinTest.kind =
      [.normal, .scalarRhs, .scalarLhs, .assign, .assignScalarRhs] ∧
    (∀ t ∈ impl_binary_op_test ref, t.scalarRef = ref) ∧
    (∀ t ∈ impl_binary_checked_op_test ref, t.scalarRef = ref) := by
  refine ⟨rfl, rfl, rfl, rfl, ?_, ?_⟩ <;>
    simp [impl_binary_op_test, impl_binary_checked_op_test]

/-- Witness for C9's amended claim at a concrete instantiation. -/
theorem binary_op_test_generates_five_witness :
    (impl_binary_op_test (0 : Nat)).length = 5 ∧
    (∀ t ∈ impl_binary_op_test (0 : Nat), t.scalarRef = 0) :=
  ⟨(binary_op_test_generates_five Nat 0).1,
   (binary_op_test_generates_five Nat 0).2.2.2.2.1⟩

/-! ## C1: wrapping integer arithmetic is elementwise and never traps -/

/-- C1: for every element width `w`, all lane arrays `x`, `y` (of any common
lane count) and every lane index `i`, the integer `add`, `sub` and `mul`
vector operators are total (they return a plain vector — no panic is
modelled) and each result lane equals the scalar wrapping operation applied
to `x[i]` and `y[i]` (overflow wraps modulo `2 ^ w`), for the vector-vector,
vector-scalar broadcast, scalar-vector broadcast, and assigning forms
alike. -/
theorem wrapping_ops_elementwise (w : Nat) (x y : List Nat) (s i : Nat)
    (hx : i < x.length) (hy : i < y.length) :
    ∀ f ∈ [wrapping_add w, wrapping_sub w, wrapping_mul w],
      (Vec.binop f (Vec.from_array x) (Vec.from_array y)).to_array[i]? =
          some (f x[i] y[i]) ∧
      (Vec.binopScalar f (Vec.from_array x) s).to_array[i]? =
          some (f x[i] s) ∧
      (Vec.scalarBinop f s (Vec.from_array y)).to_array[i]? =
          some (f s y[i]) ∧
      (Vec.binopAssign f (Vec.from_array x) (Vec.from_array y)).to_array[i]? =
          some (f x[i] y[i]) := by
  intro f _
  refine ⟨binop_lane f x y i hx hy, ?_, ?_, binop_lane f x y i hx hy⟩
  · simp [Vec.binopScalar, Vec.from_array, Vec.to_array, List.getElem?_map,
      List.getElem?_eq_getElem, hx]
  · simp [Vec.scalarBinop, Vec.from_array, Vec.to_array, List.getElem?_map,
      List.getElem?_eq_getElem, hy]

/-- Witness for C1 at `w = 8`: the lane `i8::MAX + 1` (bit patterns
`0x7F + 0x01`) wraps to `0x80`, the bit pattern of `i8::MIN`. -/
theorem wrapping_ops_elementwise_witness :
    (Vec.binop (wrapping_add 8) (Vec.from_array [127]) (Vec.from_array [1])).to_array[0]? =
      some 128 := by
  have h := (wrapping_ops_elementwise 8 [127] [1] 5 0 (by decide) (by decide)
      (wrapping_add 8) (List.mem_cons_self _ _)).1
  simpa using h

/-! ## C2: division and remainder trap conditions -/

/-- If any lane result is a panic (`none`), collecting the lane results
panics. -/
theorem seqOpt_eq_none_of_mem {l : List (Option α)} (h : none ∈ l) :
    seqOpt l = none := by
  induction l with
  | nil => simp at h
  | cons o rest ih =>
    rcases List.mem_cons.mp h with h1 | h2
    · cases o with
      | none => cases seqOpt rest <;> rfl
      | some x => exact absurd h1.symm (by simp)
    · cases o <;> simp [seqOpt, ih h2]

/-- If every lane result is defined, collecting the lane results succeeds. -/
theorem seqOpt_isSome {l : List (Option α)} (h : ∀ o ∈ l, o.isSome) :
    (seqOpt l).isSome := by
  induction l with
  | nil => simp [seqOpt]
  | cons o rest ih =>
    have ho := h o (List.mem_cons_self o rest)
    have hr := ih (fun x hx => h x (List.mem_cons_of_mem o hx))
    cases o with
    | none => simp at ho
    | some x =>
      rcases Option.isSome_iff_exists.mp hr with ⟨xs, hxs⟩
      simp [seqOpt, hxs]

/-- C2: for every signed element width `w` and every supported lane count
`n ≥ 1`: `splat(MIN) / splat(-1)` and `splat(MIN) % splat(-1)` panic;
`splat(x) / splat(0)` and `splat(x) % splat(0)` panic for signed and
unsigned vectors alike; any divisor with a zero lane (in particular exactly
one zero lane) makes division and remainder panic; and `splat(x) / splat(-1)`
and `splat(x) % splat(-1)` do not panic when `x ≠ MIN`. -/
theorem div_rem_trap_conditions (w n : Nat) (x : Int) (u : Nat) (hn : 1 ≤ n) :
    (Vec.vdiv w (Vec.splat n (intMin w)) (Vec.splat n (-1)) = none) ∧
    (Vec.vrem w (Vec.splat n (intMin w)) (Vec.splat n (-1)) = none) ∧
    (Vec.vdiv w (Vec.splat n x) (Vec.splat n 0) = none) ∧
    (Vec.vrem w (Vec.splat n x) (Vec.splat n 0) = none) ∧
    (Vec.vdivU (Vec.splat n u) (Vec.splat n 0) = none) ∧
    (Vec.vremU (Vec.splat n u) (Vec.splat n 0) = none) ∧
    (∀ a b : Vec Int, ∀ i : Nat, i < a.lanes.length →
      ∀ h : i < b.lanes.length, b.lanes[i] = 0 →
        Vec.vdiv w a b = none ∧ Vec.vrem w a b = none) ∧
    (x ≠ intMin w →
      (Vec.vdiv w (Vec.splat n x) (Vec.splat n (-1))).isSome ∧
      (Vec.vrem w (Vec.splat n x) (Vec.splat n (-1))).isSome) := by
  have hsplat : ∀ (f : Int → Int → Option Int) (a b : Int),
      List.zipWith f (Vec.splat n a).lanes (Vec.splat n b).lanes =
        List.replicate n (f a b) := by
    intro f a b
    simp [Vec.splat, List.zipWith_replicate]
  have hnone : ∀ (f : Int → Int → Option Int) (a b : Int), f a b = none →
      Vec.binopChecked f (Vec.splat n a) (Vec.splat n b) = none := by
    intro f a b hfab
    rw [Vec.binopChecked, hsplat f a b, hfab,
      seqOpt_eq_none_of_mem (List.mem_replicate.mpr ⟨by omega, rfl⟩)]
    rfl
  refine ⟨?_, ?_, ?_, ?_, ?_, ?_, ?_, ?_⟩
  · exact hnone _ _ _ (by simp [checked_div])
  · exact hnone _ _ _ (by simp [checked_rem])
  · exact hnone _ _ _ (by simp [checked_div])
  · exact hnone _ _ _ (by simp [checked_rem])
  · rw [Vec.vdivU, Vec.binopChecked]
    simp only [Vec.splat, List.zipWith_replicate, Nat.min_self]
    rw [show checked_div_u u 0 = none from by simp [checked_div_u],
      seqOpt_eq_none_of_mem (List.mem_replicate.mpr ⟨by omega, rfl⟩)]
    rfl
  · rw [Vec.vremU, Vec.binopChecked]
    simp only [Vec.splat, List.zipWith_replicate, Nat.min_self]
    rw [show checked_rem_u u 0 = none from by simp [checked_rem_u],
      seqOpt_eq_none_of_mem (List.mem_replicate.mpr ⟨by omega, rfl⟩)]
    rfl
  · intro a b i hia hib hzero
    have hmem : ∀ (f : Int → Int → Option Int), f (a.lanes[i]) 0 = none →
        none ∈ List.zipWith f a.lanes b.lanes := by
      intro f hf
      have : (List.zipWith f a.lanes b.lanes)[i]? = some (f a.lanes[i] b.lanes[i]) := by
        simp [List.getElem?_zipWith', List.getElem?_eq_getElem, hia, hib]
      rw [hzero, hf] at this
      exact List.getElem?_mem this
    constructor
    · rw [Vec.vdiv, Vec.binopChecked,
        seqOpt_eq_none_of_mem (hmem _ (by simp [checked_div]))]
      rfl
    · rw [Vec.vrem, Vec.binopChecked,
        seqOpt_eq_none_of_mem (hmem _ (by simp [checked_rem]))]
      rfl
  · intro hx
    have hdiv : checked_div w x (-1) = some (x.tdiv (-1)) := by
      simp [checked_div, hx]
    have hrem : checked_rem w x (-1) = some (x.tmod (-1)) := by
      simp [checked_rem, hx]
    constructor
    · rw [Vec.vdiv, Vec.binopChecked, hsplat _ _ _, hdiv]
      simp only [Option.isSome_map']
      exact seqOpt_isSome (by simp)
    · rw [Vec.vrem, Vec.binopChecked, hsplat _ _ _, hrem]
      simp only [Option.isSome_map']
      exact seqOpt_isSome (by simp)

/-- Witness for C2 at `w = 8`, `n = 2`, `x = 42`: both trap cases panic and
`splat(42) / splat(-1)` does not. -/
theorem div_rem_trap_conditions_witness :
    (Vec.vdiv 8 (Vec.splat 2 (intMin 8)) (Vec.splat 2 (-1)) = none) ∧
    (Vec.vdiv 8 (Vec.splat 2 (42 : Int)) (Vec.splat 2 0) = none) ∧
    (Vec.vdiv 8 (Vec.splat 2 (42 : Int)) (Vec.splat 2 (-1))).isSome := by
  have h := div_rem_trap_conditions 8 2 42 0 (by decide)
  exact ⟨h.1, h.2.2.1, (h.2.2.2.2.2.2.2 (by decide)).1⟩

/-! ## C4: float `abs` masks off the sign bit -/

/-- The mask `!0 >> 1` at width `w ≥ 1` is `2 ^ (w - 1) - 1`: every bit set
except the most significant one. -/
theorem noSignMask_eq (w : Nat) (hw : 1 ≤ w) :
    noSignMask w = 2 ^ (w - 1) - 1 := by
  have h2 : (2 : Nat) ^ w = 2 ^ (w - 1) * 2 := by
    rw [← pow_succ]
    congr 1
    omega
  have hpos : 1 ≤ (2 : Nat) ^ (w - 1) := Nat.one_le_two_pow
  rw [noSignMask, Nat.shiftRight_eq_div_pow, pow_one]
  omega

/-- Masking a bit pattern with `2 ^ (w - 1) - 1` is reduction modulo
`2 ^ (w - 1)`, i.e. the modelled scalar float absolute value. -/
theorem land_noSignMask (w x : Nat) (hw : 1 ≤ w) :
    Nat.land x (noSignMask w) = scalarFloatAbs w x := by
  rw [noSignMask_eq w hw, scalarFloatAbs]
  exact Nat.and_pow_two_sub_one_eq_mod x (w - 1)

/-- C4: for every element width `w ≥ 1`, every float vector `v` (lanes given
by their `w`-bit IEEE patterns) and every lane index `i`, `v.abs()` computes
lane `i` by AND-ing its bit pattern with the all-bits-but-MSB mask, which is
bit-identical to the modelled scalar absolute value: the sign bit (bit
`w - 1`) is cleared, every other bit — in particular a NaN payload — is
preserved, and the `-0.0` pattern maps to the `+0.0` pattern. -/
theorem float_abs_clears_sign_bit (w : Nat) (v : FloatVec) (i : Nat)
    (hw : 1 ≤ w) (hi : i < v.lanes.length) (hb : ∀ x ∈ v.lanes, x < 2 ^ w) :
    ((FloatVec.abs w v).lanes[i]? = some (scalarFloatAbs w v.lanes[i])) ∧
    (Nat.testBit (scalarFloatAbs w v.lanes[i]) (w - 1) = false) ∧
    (∀ j : Nat, j ≠ w - 1 →
      Nat.testBit (scalarFloatAbs w v.lanes[i]) j = Nat.testBit v.lanes[i] j) ∧
    (v.lanes[i] = 2 ^ (w - 1) → scalarFloatAbs w v.lanes[i] = 0) := by
  have hx := hb _ (List.getElem_mem hi)
  refine ⟨?_, ?_, ?_, ?_⟩
  · simp only [FloatVec.abs, FloatVec.from_bits, FloatVec.to_bits,
      BitsVec.andv, BitsVec.splat]
    rw [List.getElem?_zipWith', List.getElem?_eq_getElem hi,
      List.getElem?_replicate, if_pos hi]
    simp [land_noSignMask w _ hw]
  · rw [scalarFloatAbs, Nat.testBit_mod_two_pow]
    simp
  · intro j hj
    rcases Nat.lt_or_ge j (w - 1) with hlt | hge
    · rw [scalarFloatAbs, Nat.testBit_mod_two_pow]
      simp [hlt]
    · have hjw : w ≤ j := by omega
      have hmono : (2 : Nat) ^ w ≤ 2 ^ j := Nat.pow_le_pow_right (by omega) hjw
      have h1 : Nat.testBit (scalarFloatAbs w v.lanes[i]) j = false := by
        apply Nat.testBit_lt_two_pow
        calc scalarFloatAbs w v.lanes[i] < 2 ^ (w - 1) :=
              Nat.mod_lt _ (Nat.pos_of_ne_zero (by positivity))
          _ ≤ 2 ^ j := Nat.pow_le_pow_right (by omega) (by omega)
      have h2 : Nat.testBit v.lanes[i] j = false :=
        Nat.testBit_lt_two_pow (lt_of_lt_of_le hx hmono)
      rw [h1, h2]
  · intro h0
    rw [scalarFloatAbs, h0, Nat.mod_self]

/-- Witness for C4 at `w = 32` on a single-lane vector holding the negative
quiet-NaN pattern `0xFFC00001`: `abs` clears the sign bit and keeps the
payload, giving `0x7FC00001`. -/
theorem float_abs_clears_sign_bit_witness :
    ((FloatVec.abs 32 ⟨[0xFFC00001]⟩).lanes[0]? = some 0x7FC00001) ∧
    Nat.testBit (scalarFloatAbs 32 0xFFC00001) 31 = false := by
  have h := float_abs_clears_sign_bit 32 ⟨[0xFFC00001]⟩ 0 (by decide)
    (by decide) (by decide)
  constructor
  · rw [h.1]
    decide
  · exact h.2.1

/-! ## C5: float horizontal min/max are NaN-skipping folds -/

/-- Scalar float `max` yields NaN exactly when both operands are NaN. -/
theorem fmax_eq_nan_iff (a b : MFloat) :
    MFloat.fmax a b = .nan ↔ a = .nan ∧ b = .nan := by
  cases a <;> cases b <;> simp [MFloat.fmax] <;> split <;> simp

/-- Scalar float `min` yields NaN exactly when both operands are NaN. -/
theorem fmin_eq_nan_iff (a b : MFloat) :
    MFloat.fmin a b = .nan ↔ a = .nan ∧ b = .nan := by
  cases a <;> cases b <;> simp [MFloat.fmin] <;> split <;> simp

/-- The NaN-propagating fold of `max` is NaN iff the seed and every element
are NaN. -/
theorem foldl_fmax_eq_nan (xs : List MFloat) :
    ∀ acc, xs.foldl MFloat.fmax acc = .nan ↔ acc = .nan ∧ ∀ x ∈ xs, x = .nan := by
  induction xs with
  | nil => intro acc; simp
  | cons x rest ih =>
    intro acc
    simp only [List.foldl_cons, ih, fmax_eq_nan_iff, List.forall_mem_cons]
    tauto

/-- The NaN-propagating fold of `min` is NaN iff the seed and every element
are NaN. -/
theorem foldl_fmin_eq_nan (xs : List MFloat) :
    ∀ acc, xs.foldl MFloat.fmin acc = .nan ↔ acc = .nan ∧ ∀ x ∈ xs, x = .nan := by
  induction xs with
  | nil => intro acc; simp
  | cons x rest ih =>
    intro acc
    simp only [List.foldl_cons, ih, fmin_eq_nan_iff, List.forall_mem_cons]
    tauto

/-- Erasing zero signs commutes with scalar float `max`. -/
theorem canonZero_fmax (a b : MFloat) :
    (MFloat.fmax a b).canonZero = MFloat.fmax a.canonZero b.canonZero := by
  cases a with
  | nan => rfl
  | num av as =>
    cases b with
    | nan => rfl
    | num bv bs =>
      by_cases h : av < bv <;> simp [MFloat.fmax, MFloat.canonZero, h]

/-- Erasing zero signs commutes with scalar float `min`. -/
theorem canonZero_fmin (a b : MFloat) :
    (MFloat.fmin a b).canonZero = MFloat.fmin a.canonZero b.canonZero := by
  cases a with
  | nan => rfl
  | num av as =>
    cases b with
    | nan => rfl
    | num bv bs =>
      by_cases h : bv < av <;> simp [MFloat.fmin, MFloat.canonZero, h]

/-- Erasing zero signs commutes with the fold of `max`. -/
theorem foldl_fmax_canonZero (xs : List MFloat) :
    ∀ acc, (xs.foldl MFloat.fmax acc).canonZero =
      (xs.map MFloat.canonZero).foldl MFloat.fmax acc.canonZero := by
  induction xs with
  | nil => intro acc; rfl
  | cons x rest ih =>
    intro acc
    simp only [List.foldl_cons, List.map_cons, ih, canonZero_fmax]

/-- Erasing zero signs commutes with the fold of `min`. -/
theorem foldl_fmin_canonZero (xs : List MFloat) :
    ∀ acc, (xs.foldl MFloat.fmin acc).canonZero =
      (xs.map MFloat.canonZero).foldl MFloat.fmin acc.canonZero := by
  induction xs with
  | nil => intro acc; rfl
  | cons x rest ih =>
    intro acc
    simp only [List.foldl_cons, List.map_cons, ih, canonZero_fmin]

/-- C5: for every float lane array `xs`, `horizontal_max` (resp.
`horizontal_min`) equals the scalar NaN-propagating fold of `max` (resp.
`min`) over the lanes: the scalar operation returns the non-NaN operand when
exactly one side is NaN, so NaN lanes are skipped and the result is NaN iff
every lane is NaN; and `+0.0`/`-0.0` are interchangeable — erasing zero
signs in the lanes changes the result at most in the sign of a zero. -/
theorem horizontal_minmax_float_nan_fold (xs : List MFloat) :
    ((Vec.from_array xs).horizontal_max_f = xs.foldl MFloat.fmax .nan) ∧
    ((Vec.from_array xs).horizontal_min_f = xs.foldl MFloat.fmin .nan) ∧
    (∀ y : MFloat, MFloat.fmax .nan y = y ∧ MFloat.fmax y .nan = y ∧
      MFloat.fmin .nan y = y ∧ MFloat.fmin y .nan = y) ∧
    ((Vec.from_array xs).horizontal_max_f = .nan ↔ ∀ x ∈ xs, x = .nan) ∧
    ((Vec.from_array xs).horizontal_min_f = .nan ↔ ∀ x ∈ xs, x = .nan) ∧
    ((Vec.from_array xs).horizontal_max_f.canonZero =
      (Vec.from_array (xs.map MFloat.canonZero)).horizontal_max_f) ∧
    ((Vec.from_array xs).horizontal_min_f.canonZero =
      (Vec.from_array (xs.map MFloat.canonZero)).horizontal_min_f) := by
  refine ⟨rfl, rfl, ?_, ?_, ?_, ?_, ?_⟩
  · intro y
    refine ⟨rfl, ?_, rfl, ?_⟩ <;> cases y <;> rfl
  · rw [show (Vec.from_array xs).horizontal_max_f = xs.foldl MFloat.fmax .nan from rfl,
      foldl_fmax_eq_nan xs .nan]
    simp
  · rw [show (Vec.from_array xs).horizontal_min_f = xs.foldl MFloat.fmin .nan from rfl,
      foldl_fmin_eq_nan xs .nan]
    simp
  · rw [show (Vec.from_array xs).horizontal_max_f = xs.foldl MFloat.fmax .nan from rfl,
      foldl_fmax_canonZero xs .nan]
    rfl
  · rw [show (Vec.from_array xs).horizontal_min_f = xs.foldl MFloat.fmin .nan from rfl,
      foldl_fmin_canonZero xs .nan]
    rfl

/-- Witness for C5 on the lanes `[NaN, 1.0]`: the reduction skips the NaN
lane and is not NaN. -/
theorem horizontal_minmax_float_nan_fold_witness :
    (Vec.from_array [MFloat.nan, MFloat.num 1 false]).horizontal_max_f =
      MFloat.num 1 false ∧
    ¬ ((Vec.from_array [MFloat.nan, MFloat.num 1 false]).horizontal_max_f =
      MFloat.nan) := by
  constructor
  · rw [(horizontal_minmax_float_nan_fold [MFloat.nan, MFloat.num 1 false]).1]
    rfl
  · intro h
    have := (horizontal_minmax_float_nan_fold
      [MFloat.nan, MFloat.num 1 false]).2.2.2.1.mp h (MFloat.num 1 false) (by simp)
    simp at this

/-! ## C7: integer horizontal reductions -/

/-- The left fold of `max` over a list is an upper bound of the seed and of
every element, and is the seed or one of the elements. -/
theorem foldl_max_spec [LinearOrder α] (xs : List α) :
    ∀ a : α, (xs.foldl max a = a ∨ xs.foldl max a ∈ xs) ∧
      a ≤ xs.foldl max a ∧ ∀ x ∈ xs, x ≤ xs.foldl max a := by
  induction xs with
  | nil => intro a; exact ⟨Or.inl rfl, le_refl a, by simp⟩
  | cons x rest ih =>
    intro a
    rw [List.foldl_cons]
    obtain ⟨hmem, hle, hbd⟩ := ih (max a x)
    refine ⟨?_, ?_, ?_⟩
    · rcases hmem with h | h
      · rcases max_choice a x with hc | hc
        · exact Or.inl (h.trans hc)
        · exact Or.inr (by rw [h.trans hc]; exact List.mem_cons_self x rest)
      · exact Or.inr (List.mem_cons_of_mem x h)
    · exact (le_max_left a x).trans hle
    · intro y hy
      rcases List.mem_cons.mp hy with h | h
      · exact h ▸ (le_max_right a x).trans hle
      · exact hbd y h
/-- The left fold of `min` over a list is a lower bound of the seed and of
every element, and is the seed or one of the elements. -/
theorem foldl_min_spec [LinearOrder α] (xs : List α) :
    ∀ a : α, (xs.foldl min a = a ∨ xs.foldl min a ∈ xs) ∧
      xs.foldl min a ≤ a ∧ ∀ x ∈ xs, xs.foldl min a ≤ x := by
  induction xs with
  | nil => intro a; exact ⟨Or.inl rfl, le_refl a, by simp⟩
  | cons x rest ih =>
    intro a
    rw [List.foldl_cons]
    obtain ⟨hmem, hle, hbd⟩ := ih (min a x)
    refine ⟨?_, ?_, ?_⟩
    · rcases hmem with h | h
      · rcases min_choice a x with hc | hc
        · exact Or.inl (h.trans hc)
        · exact Or.inr (by rw [h.trans hc]; exact List.mem_cons_self x rest)
      · exact Or.inr (List.mem_cons_of_mem x h)
    · exact hle.trans (min_le_left a x)
    · intro y hy
      rcases List.mem_cons.mp hy with h | h
      · exact h ▸ hle.trans (min_le_right a x)
      · exact hbd y h

/-- C7: for every element width `w` and every lane array, `horizontal_sum`
is the left fold of wrapping addition with identity `0`,
`horizontal_product` the left fold of wrapping multiplication with identity
`1`, `horizontal_and` the fold of bitwise AND with identity all-ones,
`horizontal_or` the fold of bitwise OR with identity all-zeros,
`horizontal_xor` the fold of bitwise XOR with identity all-zeros, and
`horizontal_max`/`horizontal_min` are the standard max/min folds: on a
nonempty lane array they return an element that bounds every lane. -/
theorem integer_horizontal_reductions (w : Nat) (xs : List Nat)
    {α : Type} [LinearOrder α] (ys : List α) :
    ((Vec.from_array xs).horizontal_sum w = xs.foldl (wrapping_add w) 0) ∧
    ((Vec.from_array xs).horizontal_product w = xs.foldl (wrapping_mul w) 1) ∧
    ((Vec.from_array xs).horizontal_and w = xs.foldl Nat.land (2 ^ w - 1)) ∧
    ((Vec.from_array xs).horizontal_or = xs.foldl Nat.lor 0) ∧
    ((Vec.from_array xs).horizontal_xor = xs.foldl Nat.xor 0) ∧
    (∀ (y : α) (ys2 : List α), (Vec.from_array (y :: ys2)).horizontal_maxi =
      some (ys2.foldl max y) ∧
      (Vec.from_array (y :: ys2)).horizontal_mini = some (ys2.foldl min y)) ∧
    (∀ m : α, (Vec.from_array ys).horizontal_maxi = some m →
      m ∈ ys ∧ ∀ a ∈ ys, a ≤ m) ∧
    (∀ m : α, (Vec.from_array ys).horizontal_mini = some m →
      m ∈ ys ∧ ∀ a ∈ ys, m ≤ a) := by
  refine ⟨rfl, rfl, rfl, rfl, rfl, fun y ys2 => ⟨rfl, rfl⟩, ?_, ?_⟩
  · intro m hm
    cases ys with
    | nil => exact absurd hm (by simp [Vec.horizontal_maxi, Vec.from_array])
    | cons y ys2 =>
      have hm2 : ys2.foldl max y = m := by
        have : some (ys2.foldl max y) = some m := hm
        exact Option.some.inj this
      obtain ⟨hmem, hle, hbd⟩ := foldl_max_spec ys2 y
      refine ⟨?_, ?_⟩
      · rw [← hm2]
        rcases hmem with h | h
        · rw [h]; exact List.mem_cons_self y ys2
        · exact List.mem_cons_of_mem y h
      · intro a ha
        rw [← hm2]
        rcases List.mem_cons.mp ha with h | h
        · exact h ▸ hle
        · exact hbd a h
  · intro m hm
    cases ys with
    | nil => exact absurd hm (by simp [Vec.horizontal_mini, Vec.from_array])
    | cons y ys2 =>
      have hm2 : ys2.foldl min y = m := by
        have : some (ys2.foldl min y) = some m := hm
        exact Option.some.inj this
      obtain ⟨hmem, hle, hbd⟩ := foldl_min_spec ys2 y
      refine ⟨?_, ?_⟩
      · rw [← hm2]
        rcases hmem with h | h
        · rw [h]; exact List.mem_cons_self y ys2
        · exact List.mem_cons_of_mem y h
      · intro a ha
        rw [← hm2]
        rcases List.mem_cons.mp ha with h | h
        · exact h ▸ hle
        · exact hbd a h

/-- Witness for C7 on the spec's scenario `[1,2,3,4]` (width 32):
`horizontal_sum == 10` and `horizontal_max == some 4`, and the max bounds
every lane. -/
theorem integer_horizontal_reductions_witness :
    (Vec.from_array [1, 2, 3, 4]).horizontal_sum 32 = 10 ∧
    (Vec.from_array ([1, 2, 3, 4] : List Nat)).horizontal_maxi = some 4 ∧
    (4 ∈ ([1, 2, 3, 4] : List Nat) ∧ ∀ a ∈ ([1, 2, 3, 4] : List Nat), a ≤ 4) := by
  refine ⟨?_, by decide, ?_⟩
  · rw [(integer_horizontal_reductions 32 [1, 2, 3, 4] ([] : List Nat)).1]
    decide
  · exact (integer_horizontal_reductions 32 [1, 2, 3, 4]
      ([1, 2, 3, 4] : List Nat)).2.2.2.2.2.2.1 4 (by decide)

/-! ## C8: equality, lexicographic ordering, total order, hash -/

/-- When the element `partial_cmp` is total (always `Some` and agreeing with
the element `cmp`, as for the integer types), the lexicographic array
`partial_cmp` always returns `Some` of the lexicographic array `cmp`. -/
theorem lexPcmp_eq_some {α : Type} {pc : α → α → Option Ordering}
    {c : α → α → Ordering} (hpc : ∀ x y, pc x y = some (c x y)) :
    ∀ xs ys : List α, lexPcmp pc xs ys = some (lexCmp c xs ys) := by
  intro xs
  induction xs with
  | nil => intro ys; cases ys <;> rfl
  | cons x xs ih =>
    intro ys
    cases ys with
    | nil => rfl
    | cons y ys =>
      simp only [lexPcmp, lexCmp, hpc x y]
      cases c x y <;> simp [ih]

/-- C8: two vectors are equal iff every lane is equal under the element
equality; the partial ordering is the lexicographic comparison of the lane
sequences via the array representation; for element types whose
`partial_cmp` is total and agrees with `cmp` (the integer types),
`partial_cmp` always returns `Some` and agrees with the total `cmp`; and the
hash is derived solely from the lane sequence, so equal vectors hash
identically. -/
theorem vector_eq_ord_hash_lex {α : Type} [DecidableEq α] (a b : Vec α)
    (pc : α → α → Option Ordering) (c : α → α → Ordering) :
    (Vec.eqv a b = true ↔ a.lanes.length = b.lanes.length ∧
      ∀ (i : Nat) (h1 : i < a.lanes.length) (h2 : i < b.lanes.length),
        a.lanes[i] = b.lanes[i]) ∧
    (Vec.pcmp pc a b = lexPcmp pc a.lanes b.lanes) ∧
    (Vec.cmp c a b = lexCmp c a.lanes b.lanes) ∧
    ((∀ x y, pc x y = some (c x y)) →
      Vec.pcmp pc a b = some (Vec.cmp c a b)) ∧
    (∀ h : List α → Nat, Vec.eqv a b = true → Vec.hashv h a = Vec.hashv h b) := by
  refine ⟨?_, rfl, rfl, ?_, ?_⟩
  · rw [Vec.eqv, decide_eq_true_eq]
    exact list_eq_iff_getElem a.to_array b.to_array
  · intro hpc
    exact lexPcmp_eq_some hpc a.lanes b.lanes
  · intro h hab
    have : a.to_array = b.to_array := of_decide_eq_true hab
    rw [Vec.hashv, Vec.hashv]
    exact congrArg h this

/-- Witness for C8 on two equal two-lane integer vectors, with `compare` as
the total element comparison and the lane sum as a hash function. -/
theorem vector_eq_ord_hash_lex_witness :
    (Vec.eqv (Vec.from_array [1, 2]) (Vec.from_array [1, 2]) = true) ∧
    (Vec.pcmp (fun x y : Nat => some (compare x y))
      (Vec.from_array [1, 2]) (Vec.from_array [1, 2]) =
      some (Vec.cmp compare (Vec.from_array [1, 2]) (Vec.from_array [1, 2]))) ∧
    (Vec.hashv List.sum (Vec.from_array [1, 2]) =
      Vec.hashv List.sum (Vec.from_array [1, 2])) := by
  have h := vector_eq_ord_hash_lex (Vec.from_array [1, 2])
    (Vec.from_array [1, 2]) (fun x y : Nat => some (compare x y)) compare
  refine ⟨?_, h.2.2.2.1 (fun _ _ => rfl), ?_⟩
  · exact h.1.mpr ⟨rfl, by decide⟩
  · exact h.2.2.2.2 List.sum (h.1.mpr ⟨rfl, by decide⟩)

/-! ## C10: the two `to_array` branches agree -/

/-- Index-wise characterization of the wasm copy loop: positions `i` up to
`i + src.length` are overwritten with the corresponding source lanes, all
other positions are left as in the initial array (provided the initial array
is long enough, as it is for `[self.0[0]; LANES]`). -/
theorem copyLoop_getElem? :
    ∀ (src arr : List α) (i : Nat), i + src.length ≤ arr.length → ∀ j : Nat,
      (Vec.copyLoop arr i src)[j]? =
        if i ≤ j ∧ j < i + src.length then src[j - i]? else arr[j]? := by
  intro src
  induction src with
  | nil =>
    intro arr i _ j
    rw [Vec.copyLoop, if_neg (by simp only [List.length_nil]; omega)]
  | cons x rest ih =>
    intro arr i hle j
    simp only [List.length_cons] at hle
    rw [Vec.copyLoop, ih (arr.set i x) (i + 1) (by rw [List.length_set]; omega) j]
    by_cases hj1 : j = i
    · subst hj1
      rw [if_neg (by omega), if_pos (by simp only [List.length_cons]; omega),
        List.getElem?_set, if_pos rfl, if_pos (by omega), Nat.sub_self,
        List.getElem?_cons_zero]
    · by_cases hj2 : i + 1 ≤ j ∧ j < i + 1 + rest.length
      · rw [if_pos hj2, if_pos (by simp only [List.length_cons]; omega)]
        have hji : j - i = (j - i - 1) + 1 := by omega
        rw [hji, List.getElem?_cons_succ]
        try congr 1
        try omega
      · rw [if_neg hj2, if_neg (by simp only [List.length_cons]; omega),
          List.getElem?_set, if_neg (by omega)]

/-- C10: the two conditional-compilation branches of `to_array` are
extensionally equal on every nonempty lane array — the wasm32 branch, which
initializes the array from lane 0 and copies each lane in a loop, returns
the same array as the branch that returns the inner array directly — while
for a zero-lane vector the wasm32 branch indexes element 0 of an empty array
(a panic, `none`) and the direct branch is total and returns the empty
array. -/
theorem to_array_wasm_equiv (v : Vec α) :
    (v.lanes ≠ [] → Vec.to_array_wasm v = some v.to_array) ∧
    (v.lanes = [] → Vec.to_array_wasm v = none ∧ v.to_array = []) := by
  obtain ⟨lanes⟩ := v
  cases lanes with
  | nil => exact ⟨fun h => absurd rfl h, fun _ => ⟨rfl, rfl⟩⟩
  | cons x rest =>
    refine ⟨fun _ => ?_, fun h => by simp at h⟩
    show some (Vec.copyLoop (List.replicate (x :: rest).length x) 0 (x :: rest)) =
      some (x :: rest)
    congr 1
    apply List.ext_getElem?
    intro j
    rw [copyLoop_getElem? (x :: rest) _ 0 (by simp) j]
    by_cases hj : j < (x :: rest).length
    · rw [if_pos (by omega), Nat.sub_zero]
    · rw [if_neg (by omega), List.getElem?_replicate, if_neg (by omega),
        List.getElem?_eq_none (by omega)]

/-- Witness for C10 on a concrete two-lane vector and on the empty vector. -/
theorem to_array_wasm_equiv_witness :
    (Vec.to_array_wasm (Vec.from_array [7, 9]) =
      some (Vec.to_array (Vec.from_array [7, 9]))) ∧
    (Vec.to_array_wasm (Vec.from_array ([] : List Nat)) = none) := by
  constructor
  · exact (to_array_wasm_equiv (Vec.from_array [7, 9])).1 (by simp [Vec.from_array])
  · exact ((to_array_wasm_equiv (Vec.from_array ([] : List Nat))).2 rfl).1
